import Mathlib

/-!
Shallow embedding of `grammar_commons/grammar_utils.py`.

The repository's core is `expand_bnf_recursive`, a round-based expansion of a
condensed grammar into word-only sentences, together with the bracket
validator `validate_bnf_groups`, the splitter `split_options`, the
substitution step `get_potential_options` and the word-only check
`is_words_only`.

Modelling conventions:
- Python `set` values are modelled as canonical lists: lexicographically
  sorted and duplicate-free (`sortDedup`).  Every construct of the source
  whose result is a set is order-independent (set unions, an early abort
  returning the empty list), except the iteration order inside
  `are_all_words_only`, which the model fixes to the canonical sorted order
  (CPython leaves a set's iteration order unspecified).
- The compiled `regex` patterns GROUPS_REGEX, OPTIONALS_REGEX, OPTIONS_REGEX
  and WORDS_REGEX are instantiated with a per-language character class
  `L`.  Because a class of word characters contains none of the grammar
  punctuation `( ) [ ] |` (spec section 3: a Final Sentence has "no
  remaining grammar punctuation"), the patterns' matching semantics reduce
  to the explicit scanners below; see each definition's comment.
- Python exceptions are modelled with `PyRes`; the unbounded recursion of
  `expand_bnf_recursive` is modelled with explicit fuel (`none` = the call
  has not returned within that many rounds).
-/

/-- Python exception raised when `regex.search` returns `None` and `.group`
is called on the result, as happens inside `is_words_only`. -/
inductive PyErr where
  | attributeError
  deriving DecidableEq, Repr

/-- Result of a Python computation that may raise an exception. -/
inductive PyRes (α : Type) where
  | ok : α → PyRes α
  | raised : PyErr → PyRes α
  deriving DecidableEq, Repr

/-- Code-point lexicographic strict order on character lists, exactly how
Python compares two strings. -/
def listCharLt : List Char → List Char → Bool
  | _, [] => false
  | [], _ :: _ => true
  | a :: as, b :: bs =>
    if a < b then true
    else if a = b then listCharLt as bs
    else false

/-- Python string `<`. -/
def strLt (a b : String) : Bool := listCharLt a.data b.data

/-- Insert a string into a sorted duplicate-free list, keeping it sorted and
duplicate-free. -/
def insertSorted (s : String) : List String → List String
  | [] => [s]
  | t :: ts =>
    if strLt s t then s :: t :: ts
    else if s = t then t :: ts
    else t :: insertSorted s ts

/-- Canonical representation of a Python set of strings: the sorted,
duplicate-free list of its elements (also how `sorted(final_set)` orders the
final result). -/
def sortDedup (l : List String) : List String := l.foldr insertSorted []

/-- Modelled from the spec: the values of `lang_utils.LANGUAGE_UNICODE_ALPHABET`
(the module is not under `src/`).  Spec section 3 describes each value as an
Alphabet Character Class of word characters which must include the space
separator, and a Final Sentence contains "no remaining grammar punctuation",
so the class contains none of `( ) [ ] |`. -/
structure Alphabet where
  member : Char → Bool
  space_mem : member ' ' = true
  lparen_not : member '(' = false
  rparen_not : member ')' = false
  lbrack_not : member '[' = false
  rbrack_not : member ']' = false
  pipe_not : member '|' = false

/-- Modelled from the spec: the `en` character class, letters plus the space
separator, matching the section 8 examples that use `language=en`. -/
def enAlphabet : Alphabet where
  member c := c.isAlpha || c == ' '
  space_mem := by decide
  lparen_not := by decide
  rparen_not := by decide
  lbrack_not := by decide
  rbrack_not := by decide
  pipe_not := by decide

/-- Modelled from the spec: the Alphabet Provider table
`lang_utils.LANGUAGE_UNICODE_ALPHABET`, keyed by lowercase language
identifier (spec sections 4.1 and 6). -/
def LANGUAGE_UNICODE_ALPHABET : List (String × Alphabet) := [("en", enAlphabet)]

/-- Python `str.lower()` as applied to language identifiers (ASCII keys). -/
def pyLower (s : String) : String := String.mk (s.data.map Char.toLower)

/-- Resolution of a language identifier: lowercase the identifier and look it
up among the supported keys (`language_code.lower() not in ...` and the
subsequent indexing in the source). -/
def lookupLang (table : List (String × Alphabet)) (language_code : String) :
    Option Alphabet :=
  match table.find? (fun p => p.1 == pyLower language_code) with
  | some p => some p.2
  | none => none

/-- Modelled from the spec: `string_utils.remove_from_string` (the String
Cleaner `stripChars` of spec section 6; the module is not under `src/`):
remove every occurrence of the given symbols from the string. -/
def remove_from_string (s : List Char) (symbols_to_remove : List Char) : List Char :=
  s.filter (fun c => !(symbols_to_remove.contains c))

/-- Python whitespace characters stripped by `str.strip()` (ASCII range). -/
def isPySpace (c : Char) : Bool :=
  c == ' ' || c == '\t' || c == '\n' || c == '\r' || c == '\x0b' || c == '\x0c'

/-- Python `str.strip()`: drop leading and trailing whitespace. -/
def pyStrip (s : List Char) : List Char :=
  ((s.dropWhile isPySpace).reverse.dropWhile isPySpace).reverse

/-- Python `str.split(sep)` for a one-character separator. -/
def splitOnChar (sep : Char) : List Char → List (List Char)
  | [] => [[]]
  | c :: cs =>
    if c == sep then [] :: splitOnChar sep cs
    else
      match splitOnChar sep cs with
      | [] => [[c]]
      | p :: ps => (c :: p) :: ps

/-- Embeds `split_options`: strip all of `( ) [ ]`, split on `|`, strip each
piece of surrounding whitespace. -/
def split_options (s : String) : List String :=
  (splitOnChar '|' (remove_from_string s.data ['(', ')', '[', ']'])).map
    (fun w => String.mk (pyStrip w))

/-- Python `s.replace(old, new, 1)` for non-empty `old`: replace the leftmost
occurrence of `old`, leave everything else untouched. -/
def replaceFirstAux (old new : List Char) : List Char → List Char
  | [] => []
  | c :: cs =>
    if old.isPrefixOf (c :: cs) then new ++ (c :: cs).drop old.length
    else c :: replaceFirstAux old new cs

/-- Python `s.replace(old, new, 1)` (an empty `old` inserts `new` once at the
front, as CPython does with a count of 1). -/
def pyReplace1 (s old new : String) : String :=
  if old.data.isEmpty then String.mk (new.data ++ s.data)
  else String.mk (replaceFirstAux old.data new.data s.data)

/-- Embeds `get_potential_options`: replace the first occurrence of
`matched_value` in `bnf` with each option from `split_options matched_value`;
the resulting Python set is modelled canonically with `sortDedup`. -/
def get_potential_options (bnf matched_value : String) : List String :=
  sortDedup ((split_options matched_value).map
    (fun option => pyReplace1 bnf matched_value option))

/-- Stack machine of `validate_bnf_groups` (character indices and log text
carry no information about the returned boolean and are omitted; CPython
interns single ASCII characters, so the source's `is` comparisons behave as
equality). -/
def validateAux : List Char → List Char → Bool
  | stack, [] => stack.isEmpty
  | stack, c :: cs =>
    if c == '(' || c == '[' then validateAux (c :: stack) cs
    else if c == ')' then
      match stack with
      | [] => false
      | o :: rest => if o == '(' then validateAux rest cs else false
    else if c == ']' then
      match stack with
      | [] => false
      | o :: rest => if o == '[' then validateAux rest cs else false
    else validateAux stack cs

/-- Embeds `validate_bnf_groups`. -/
def validate_bnf_groups (bnf : String) : Bool := validateAux [] bnf.data

/-- Content scan of the formatted GROUPS/OPTIONALS patterns.  After the
opener, the regex body `(?:L*|(L*\|L*)*|(L*\|L*\|L*)*)` matches precisely the
strings over alphabet characters and pipes (backtracking is complete), and
since the closer is not such a character the match from a given opener is
forced to end at the first character outside the content class, which must be
the closer. -/
def scanContent (A : Alphabet) (closeC : Char) : List Char → Option (List Char)
  | [] => none
  | c :: cs =>
    if c == closeC then some []
    else if A.member c || c == '|' then
      match scanContent A closeC cs with
      | some content => some (c :: content)
      | none => none
    else none

/-- Leftmost match of the formatted span pattern (GROUPS with `(` `)`,
OPTIONALS with `[` `]`): `regex.search` tries start positions left to right,
a match can only start at an opener, and from an opener the span is forced by
`scanContent`.  Returns the matched span, delimiters included, exactly the
`atomic_groups` / `atomic_optionals` named capture. -/
def findSpan (A : Alphabet) (openC closeC : Char) : List Char → Option (List Char)
  | [] => none
  | c :: cs =>
    if c == openC then
      match scanContent A closeC cs with
      | some content => some (openC :: (content ++ [closeC]))
      | none => findSpan A openC closeC cs
    else findSpan A openC closeC cs

/-- Leftmost match of the formatted WORDS pattern `L+`: the first maximal run
of alphabet characters, `none` when the string has no alphabet character (the
case in which the source's `regex.search` returns `None`). -/
def firstWordRun (A : Alphabet) : List Char → Option (List Char)
  | [] => none
  | c :: cs =>
    if A.member c then some (c :: cs.takeWhile A.member)
    else firstWordRun A cs

/-- Embeds `is_words_only`: unsupported language gives `False`; otherwise the
leftmost word run is compared with the whole string, and when no word run
exists the attribute access `words_match.group(...)` on `None` raises. -/
def is_words_only (table : List (String × Alphabet)) (s language_code : String) :
    PyRes Bool :=
  match lookupLang table language_code with
  | none => .ok false
  | some A =>
    match firstWordRun A s.data with
    | none => .raised .attributeError
    | some run => .ok (run == s.data)

/-- Embeds `are_all_words_only`: scan the sentences (in the model, in
canonical order) and return `False` at the first sentence that is not
word-only; an exception from `is_words_only` propagates. -/
def are_all_words_only (table : List (String × Alphabet)) (sentences : List String)
    (language_code : String) : PyRes Bool :=
  match sentences with
  | [] => .ok true
  | s :: rest =>
    match is_words_only table s language_code with
    | .raised e => .raised e
    | .ok true => are_all_words_only table rest language_code
    | .ok false => .ok false

/-- Phase A of a round (the first loop of `expand_bnf_recursive`): the
OPTIONS pattern `fullmatch` succeeds exactly when every character of the
candidate is an alphabet character or a pipe, and the captured group is then
the whole candidate, empty only for the empty candidate; such a candidate is
split, every other candidate passes through unchanged. -/
def phaseA_one (A : Alphabet) (s : String) : List String :=
  if s.data.all (fun c => A.member c || c == '|') && !s.data.isEmpty then
    split_options s
  else [s]

/-- Phase B of a round on one candidate (the second loop of
`expand_bnf_recursive`): `none` models the early `return list()` taken when
`validate_bnf_groups` fails; otherwise the first atomic group (if any) is
substituted.  The matched span always contains its parentheses, so the
source's emptiness test on the capture never fires. -/
def phaseB_one (A : Alphabet) (s : String) : Option (List String) :=
  if validate_bnf_groups s then
    match findSpan A '(' ')' s.data with
    | none => some [s]
    | some span => some (get_potential_options s (String.mk span))
  else none

/-- Phase B over the whole working set: any validation failure aborts the
entire call. -/
def phaseB (A : Alphabet) : List String → Option (List String)
  | [] => some []
  | s :: rest =>
    match phaseB_one A s with
    | none => none
    | some xs =>
      match phaseB A rest with
      | none => none
      | some ys => some (xs ++ ys)

/-- Python `s.replace('  ', ' ')`: every non-overlapping occurrence of two
consecutive spaces, scanned left to right, becomes a single space. -/
def collapseDoubleSpace : List Char → List Char
  | [] => []
  | [c] => [c]
  | c1 :: c2 :: cs =>
    if c1 == ' ' && c2 == ' ' then ' ' :: collapseDoubleSpace cs
    else c1 :: collapseDoubleSpace (c2 :: cs)

/-- Phase C of a round on one candidate (the third loop of
`expand_bnf_recursive`): resolve the first atomic optional into the
absent variant (span deleted, double spaces collapsed) plus one variant per
alternative of the span. -/
def phaseC_one (A : Alphabet) (s : String) : List String :=
  match findSpan A '[' ']' s.data with
  | none => [s]
  | some span =>
    let optionalSpan := String.mk span
    let tmp_new_expansion := pyReplace1 s optionalSpan ""
    String.mk (collapseDoubleSpace tmp_new_expansion.data) ::
      get_potential_options s optionalSpan

/-- One round of `expand_bnf_recursive` (Phases A, B, C), producing the next
working set, or `none` for the abort on a validation failure. -/
def expandRound (A : Alphabet) (to_be_expanded : List String) : Option (List String) :=
  let option_expansions := sortDedup ((to_be_expanded.map (phaseA_one A)).flatten)
  match phaseB A option_expansions with
  | none => none
  | some ge =>
    let group_expansions := sortDedup ge
    some (sortDedup ((group_expansions.map (phaseC_one A)).flatten))

/-- Embeds `expand_bnf_recursive`.  The Python self-recursion is modelled
with explicit fuel: `none` means the call has not returned within `fuel`
rounds (the source recurses unboundedly). -/
def expandFuel (table : List (String × Alphabet)) :
    Nat → List String → String → Option (PyRes (List String))
  | 0, _, _ => none
  | fuel + 1, to_be_expanded, language_code =>
    match lookupLang table language_code with
    | none => some (.ok [])
    | some A =>
      if to_be_expanded.isEmpty then some (.ok [])
      else
        match expandRound A to_be_expanded with
        | none => some (.ok [])
        | some goe =>
          match are_all_words_only table goe language_code with
          | .raised e => some (.raised e)
          | .ok false => expandFuel table fuel goe language_code
          | .ok true => some (.ok (sortDedup goe))

/-! Specification-side definitions.  These are written from the spec's words,
for comparison with the definitions translated from the source. -/

/-- Specification-side well-nesting (spec sections 4.2 and 8): every `(` is
matched by a `)` and every `[` by a `]`, pairs properly nested and
non-crossing, all other characters free. -/
inductive BalancedBNF : List Char → Prop
  | nil : BalancedBNF []
  | other {c : Char} {cs : List Char} : c ≠ '(' → c ≠ ')' → c ≠ '[' → c ≠ ']' →
      BalancedBNF cs → BalancedBNF (c :: cs)
  | paren {inner rest : List Char} : BalancedBNF inner → BalancedBNF rest →
      BalancedBNF ('(' :: (inner ++ ')' :: rest))
  | brack {inner rest : List Char} : BalancedBNF inner → BalancedBNF rest →
      BalancedBNF ('[' :: (inner ++ ']' :: rest))

/-- Specification-side decomposition at the first occurrence of a pattern:
`some (p, suf)` when the string is `p ++ pat ++ suf` with `p` shortest. -/
def splitAtFirstAux (pat : List Char) : List Char → Option (List Char × List Char)
  | [] => if pat.isEmpty then some ([], []) else none
  | c :: cs =>
    if pat.isPrefixOf (c :: cs) then some ([], (c :: cs).drop pat.length)
    else (splitAtFirstAux pat cs).map (fun pr => (c :: pr.1, pr.2))

/-- Decomposition of a string at the first occurrence of `pat`. -/
def splitAtFirst (s pat : String) : Option (String × String) :=
  (splitAtFirstAux pat.data s.data).map (fun pr => (String.mk pr.1, String.mk pr.2))

/-- Whether two consecutive spaces occur anywhere in the string. -/
def hasDoubleSpace : List Char → Bool
  | [] => false
  | [_] => false
  | c1 :: c2 :: cs => (c1 == ' ' && c2 == ' ') || hasDoubleSpace (c2 :: cs)

/-! Lemmas about the lexicographic order and the canonical set representation. -/

theorem listCharLt_irrefl (l : List Char) : listCharLt l l = false := by
  induction l with
  | nil => rfl
  | cons c cs ih => simp [listCharLt, ih, lt_irrefl]

theorem strLt_ne {a b : String} (h : strLt a b = true) : a ≠ b := by
  intro he
  subst he
  rw [strLt, listCharLt_irrefl] at h
  exact Bool.false_ne_true h

theorem listCharLt_trans {a b c : List Char} (h1 : listCharLt a b = true)
    (h2 : listCharLt b c = true) : listCharLt a c = true := by
  induction a generalizing b c with
  | nil =>
    cases b with
    | nil => exact absurd h1 (by simp [listCharLt])
    | cons y ys =>
      cases c with
      | nil => exact absurd h2 (by simp [listCharLt])
      | cons z zs => simp [listCharLt]
  | cons x xs ih =>
    cases b with
    | nil => exact absurd h1 (by simp [listCharLt])
    | cons y ys =>
      cases c with
      | nil => exact absurd h2 (by simp [listCharLt])
      | cons z zs =>
        simp only [listCharLt] at h1 h2 ⊢
        split at h1
        · next hxy =>
          split at h2
          · next hyz => simp [lt_trans hxy hyz]
          · split at h2
            · next hyz => subst hyz; simp [hxy]
            · exact absurd h2 (by simp)
        · split at h1
          · next hxy =>
            subst hxy
            split at h2
            · next hyz => simp [hyz]
            · split at h2
              · next hyz => subst hyz; simp [h1, ih h1 h2]
              · exact absurd h2 (by simp)
          · exact absurd h1 (by simp)

theorem strLt_trans {a b c : String} (h1 : strLt a b = true)
    (h2 : strLt b c = true) : strLt a c = true :=
  listCharLt_trans h1 h2

theorem listCharLt_total {a b : List Char} (h : listCharLt a b = false)
    (hne : a ≠ b) : listCharLt b a = true := by
  induction a generalizing b with
  | nil =>
    cases b with
    | nil => exact absurd rfl hne
    | cons y ys => exact absurd h (by simp [listCharLt])
  | cons x xs ih =>
    cases b with
    | nil => simp [listCharLt]
    | cons y ys =>
      simp only [listCharLt] at h ⊢
      split at h
      · exact absurd h (by simp)
      · next hxy =>
        split at h
        · next hxy' =>
          subst hxy'
          have hne' : xs ≠ ys := fun he => hne (by rw [he])
          simp [lt_irrefl, ih h hne']
        · next hxy' =>
          rcases lt_trichotomy y x with hlt | heq | hgt
          · simp [hlt]
          · exact absurd heq.symm hxy'
          · exact absurd hgt hxy

theorem string_ext {a b : String} (h : a.data = b.data) : a = b :=
  congrArg String.mk h

theorem strLt_total {a b : String} (h : strLt a b = false) (hne : a ≠ b) :
    strLt b a = true := by
  apply listCharLt_total h
  intro hd
  exact hne (string_ext hd)

theorem mem_insertSorted {a s : String} {l : List String} :
    a ∈ insertSorted s l ↔ a = s ∨ a ∈ l := by
  induction l with
  | nil => simp [insertSorted]
  | cons t ts ih =>
    simp only [insertSorted]
    split
    · simp
    · next h1 =>
      split
      · next h2 => subst h2; simp only [List.mem_cons]; tauto
      · simp only [List.mem_cons, ih]
        tauto

theorem pairwise_insertSorted {s : String} {l : List String}
    (h : l.Pairwise (fun a b => strLt a b = true)) :
    (insertSorted s l).Pairwise (fun a b => strLt a b = true) := by
  induction l with
  | nil => simp [insertSorted]
  | cons t ts ih =>
    rcases List.pairwise_cons.mp h with ⟨ht, hts⟩
    simp only [insertSorted]
    split
    · next h1 =>
      refine List.pairwise_cons.mpr ⟨?_, h⟩
      intro u hu
      rcases List.mem_cons.mp hu with rfl | hu
      · exact h1
      · exact strLt_trans h1 (ht u hu)
    · next h1 =>
      split
      · exact h
      · next h2 =>
        refine List.pairwise_cons.mpr ⟨?_, ih hts⟩
        intro u hu
        rcases mem_insertSorted.mp hu with rfl | hu
        · exact strLt_total (by simpa using h1) h2
        · exact ht u hu

theorem pairwise_sortDedup (l : List String) :
    (sortDedup l).Pairwise (fun a b => strLt a b = true) := by
  induction l with
  | nil => simp [sortDedup]
  | cons s ts ih => exact pairwise_insertSorted ih

theorem mem_sortDedup {a : String} {l : List String} :
    a ∈ sortDedup l ↔ a ∈ l := by
  induction l with
  | nil => simp [sortDedup]
  | cons s ts ih =>
    show a ∈ insertSorted s (sortDedup ts) ↔ _
    rw [mem_insertSorted, ih]
    simp

theorem insertSorted_eq_cons {s : String} {l : List String}
    (h : ∀ u ∈ l, strLt s u = true) : insertSorted s l = s :: l := by
  cases l with
  | nil => rfl
  | cons t ts => simp [insertSorted, h t (List.mem_cons_self ..)]

theorem sortDedup_eq_self {l : List String}
    (h : l.Pairwise (fun a b => strLt a b = true)) : sortDedup l = l := by
  induction l with
  | nil => rfl
  | cons s ts ih =>
    rcases List.pairwise_cons.mp h with ⟨hs, hts⟩
    show insertSorted s (sortDedup ts) = s :: ts
    rw [ih hts]
    exact insertSorted_eq_cons hs

theorem nodup_of_pairwise_strLt {l : List String}
    (h : l.Pairwise (fun a b => strLt a b = true)) : l.Nodup :=
  h.imp (fun hab => strLt_ne hab)


/-! Correctness of the bracket validator.  `runStack` is the validator's stack
machine with the final stack made explicit (`none` on a mismatch), `ClosesSpec`
says what it means for an input to close a stack of pending openers, and the
chain `validate = true` iff `runStack` ends empty iff `ClosesSpec` iff
`BalancedBNF` settles the claim. -/

/-- State-passing form of `validateAux`: the stack after the scan, or `none`
on a mismatched closer. -/
def runStack : List Char → List Char → Option (List Char)
  | stack, [] => some stack
  | stack, c :: cs =>
    if c == '(' || c == '[' then runStack (c :: stack) cs
    else if c == ')' then
      match stack with
      | [] => none
      | o :: rest => if o == '(' then runStack rest cs else none
    else if c == ']' then
      match stack with
      | [] => none
      | o :: rest => if o == '[' then runStack rest cs else none
    else runStack stack cs

theorem validateAux_eq_runStack (cs : List Char) : ∀ stack,
    validateAux stack cs =
      match runStack stack cs with
      | some st => st.isEmpty
      | none => false := by
  induction cs with
  | nil => intro stack; rfl
  | cons c cs ih =>
    intro stack
    simp only [validateAux, runStack]
    split
    · exact ih _
    · split
      · cases stack with
        | nil => rfl
        | cons o rest =>
          dsimp only
          split
          · exact ih rest
          · rfl
      · split
        · cases stack with
          | nil => rfl
          | cons o rest =>
            dsimp only
            split
            · exact ih rest
            · rfl
        · exact ih stack

/-- What it means for the input to close every opener of a pending stack in
order: for each stack entry a balanced block followed by the matching closer,
with a final balanced block once the stack is exhausted. -/
inductive ClosesSpec : List Char → List Char → Prop
  | nil {s : List Char} : BalancedBNF s → ClosesSpec [] s
  | consParen {b rest : List Char} {stack : List Char} : BalancedBNF b →
      ClosesSpec stack rest → ClosesSpec ('(' :: stack) (b ++ ')' :: rest)
  | consBrack {b rest : List Char} {stack : List Char} : BalancedBNF b →
      ClosesSpec stack rest → ClosesSpec ('[' :: stack) (b ++ ']' :: rest)

theorem balancedBNF_append {x y : List Char} (hx : BalancedBNF x)
    (hy : BalancedBNF y) : BalancedBNF (x ++ y) := by
  induction hx with
  | nil => exact hy
  | other h1 h2 h3 h4 _ ih => exact BalancedBNF.other h1 h2 h3 h4 ih
  | paren hi _ ihi ihr =>
    rw [List.cons_append, List.append_assoc, List.cons_append]
    exact BalancedBNF.paren hi ihr
  | brack hi _ ihi ihr =>
    rw [List.cons_append, List.append_assoc, List.cons_append]
    exact BalancedBNF.brack hi ihr

theorem runStack_append {ys : List Char} (xs : List Char) : ∀ stack,
    runStack stack (xs ++ ys) =
      match runStack stack xs with
      | some st => runStack st ys
      | none => none := by
  induction xs with
  | nil => intro stack; rfl
  | cons c cs ih =>
    intro stack
    rw [List.cons_append]
    simp only [runStack]
    split
    · exact ih _
    · split
      · cases stack with
        | nil => rfl
        | cons o rest =>
          dsimp only
          split
          · exact ih rest
          · rfl
      · split
        · cases stack with
          | nil => rfl
          | cons o rest =>
            dsimp only
            split
            · exact ih rest
            · rfl
        · exact ih stack

theorem balancedBNF_runStack {s : List Char} (h : BalancedBNF s) :
    ∀ stack, runStack stack s = some stack := by
  induction h with
  | nil => intro stack; rfl
  | @other c cs h1 h2 h3 h4 _ ih =>
    intro stack
    have e1 : (c == '(') = false := by simp [h1]
    have e2 : (c == ')') = false := by simp [h2]
    have e3 : (c == '[') = false := by simp [h3]
    have e4 : (c == ']') = false := by simp [h4]
    simp only [runStack, e1, e2, e3, e4, Bool.or_self, Bool.false_or,
      Bool.false_eq_true, if_false]
    exact ih stack
  | @paren inner rest hi hr ihi ihr =>
    intro stack
    have h0 : runStack stack ('(' :: (inner ++ ')' :: rest)) =
        runStack ('(' :: stack) (inner ++ ')' :: rest) := rfl
    rw [h0, runStack_append inner ('(' :: stack), ihi ('(' :: stack)]
    exact ihr stack
  | @brack inner rest hi hr ihi ihr =>
    intro stack
    have h0 : runStack stack ('[' :: (inner ++ ']' :: rest)) =
        runStack ('[' :: stack) (inner ++ ']' :: rest) := rfl
    rw [h0, runStack_append inner ('[' :: stack), ihi ('[' :: stack)]
    exact ihr stack

theorem closesSpec_runStack {stack s : List Char} (h : ClosesSpec stack s) :
    runStack stack s = some [] := by
  induction h with
  | nil hb => exact balancedBNF_runStack hb []
  | @consParen b rest stk hb _ ih =>
    rw [runStack_append b ('(' :: stk), balancedBNF_runStack hb ('(' :: stk)]
    exact ih
  | @consBrack b rest stk hb _ ih =>
    rw [runStack_append b ('[' :: stk), balancedBNF_runStack hb ('[' :: stk)]
    exact ih

theorem closesSpec_other {c : Char} {stack s : List Char} (h1 : c ≠ '(')
    (h2 : c ≠ ')') (h3 : c ≠ '[') (h4 : c ≠ ']') (h : ClosesSpec stack s) :
    ClosesSpec stack (c :: s) := by
  cases h with
  | nil hb => exact ClosesSpec.nil (BalancedBNF.other h1 h2 h3 h4 hb)
  | consParen hb hrest =>
    rw [← List.cons_append]
    exact ClosesSpec.consParen (BalancedBNF.other h1 h2 h3 h4 hb) hrest
  | consBrack hb hrest =>
    rw [← List.cons_append]
    exact ClosesSpec.consBrack (BalancedBNF.other h1 h2 h3 h4 hb) hrest

theorem closesSpec_push_paren {stack s : List Char}
    (h : ClosesSpec ('(' :: stack) s) : ClosesSpec stack ('(' :: s) := by
  cases h with
  | @consParen b rest _ hb hrest =>
    cases hrest with
    | nil hr => exact ClosesSpec.nil (BalancedBNF.paren hb hr)
    | @consParen b' rest' stk' hb' hrest' =>
      have hsh : ('(' :: (b ++ ')' :: (b' ++ ')' :: rest'))) =
          (('(' :: (b ++ ')' :: b')) ++ ')' :: rest') := by
        simp
      rw [hsh]
      exact ClosesSpec.consParen (BalancedBNF.paren hb hb') hrest'
    | @consBrack b' rest' stk' hb' hrest' =>
      have hsh : ('(' :: (b ++ ')' :: (b' ++ ']' :: rest'))) =
          (('(' :: (b ++ ')' :: b')) ++ ']' :: rest') := by
        simp
      rw [hsh]
      exact ClosesSpec.consBrack (BalancedBNF.paren hb hb') hrest'

theorem closesSpec_push_brack {stack s : List Char}
    (h : ClosesSpec ('[' :: stack) s) : ClosesSpec stack ('[' :: s) := by
  cases h with
  | @consBrack b rest _ hb hrest =>
    cases hrest with
    | nil hr => exact ClosesSpec.nil (BalancedBNF.brack hb hr)
    | @consParen b' rest' stk' hb' hrest' =>
      have hsh : ('[' :: (b ++ ']' :: (b' ++ ')' :: rest'))) =
          (('[' :: (b ++ ']' :: b')) ++ ')' :: rest') := by
        simp
      rw [hsh]
      exact ClosesSpec.consParen (BalancedBNF.brack hb hb') hrest'
    | @consBrack b' rest' stk' hb' hrest' =>
      have hsh : ('[' :: (b ++ ']' :: (b' ++ ']' :: rest'))) =
          (('[' :: (b ++ ']' :: b')) ++ ']' :: rest') := by
        simp
      rw [hsh]
      exact ClosesSpec.consBrack (BalancedBNF.brack hb hb') hrest'

theorem runStack_closesSpec (s : List Char) : ∀ stack,
    runStack stack s = some [] → ClosesSpec stack s := by
  induction s with
  | nil =>
    intro stack h
    have : stack = [] := by simpa [runStack] using h
    subst this
    exact ClosesSpec.nil BalancedBNF.nil
  | cons c cs ih =>
    intro stack h
    simp only [runStack] at h
    split at h
    · next hop =>
      rcases Bool.or_eq_true_iff.mp hop with h1 | h1
      · have hc : c = '(' := by simpa using h1
        subst hc
        exact closesSpec_push_paren (ih _ h)
      · have hc : c = '[' := by simpa using h1
        subst hc
        exact closesSpec_push_brack (ih _ h)
    · next hop =>
      split at h
      · next hcl =>
        have hc : c = ')' := by simpa using hcl
        subst hc
        cases stack with
        | nil => exact absurd h (by simp)
        | cons o rest =>
          dsimp only at h
          split at h
          · next ho =>
            have ho' : o = '(' := by simpa using ho
            subst ho'
            exact ClosesSpec.consParen BalancedBNF.nil (ih _ h)
          · exact absurd h (by simp)
      · next hcl =>
        split at h
        · next hcl2 =>
          have hc : c = ']' := by simpa using hcl2
          subst hc
          cases stack with
          | nil => exact absurd h (by simp)
          | cons o rest =>
            dsimp only at h
            split at h
            · next ho =>
              have ho' : o = '[' := by simpa using ho
              subst ho'
              exact ClosesSpec.consBrack BalancedBNF.nil (ih _ h)
            · exact absurd h (by simp)
        · next hcl2 =>
          have h1 : c ≠ '(' := by
            intro he; subst he; simp at hop
          have h3 : c ≠ '[' := by
            intro he; subst he; simp at hop
          have h2 : c ≠ ')' := by
            intro he; subst he; simp at hcl
          have h4 : c ≠ ']' := by
            intro he; subst he; simp at hcl2
          exact closesSpec_other h1 h2 h3 h4 (ih _ h)

/-- Equivalence of the source validator with the specification-side
well-nesting predicate, on character lists. -/
theorem validate_iff_balancedBNF_data (l : List Char) :
    validateAux [] l = true ↔ BalancedBNF l := by
  constructor
  · intro h
    rw [validateAux_eq_runStack] at h
    revert h
    split
    · next st hst =>
      intro h
      have hst' : st = [] := by simpa using h
      subst hst'
      cases runStack_closesSpec l [] hst with
      | nil hb => exact hb
    · intro h
      exact absurd h (by simp)
  · intro h
    rw [validateAux_eq_runStack,
      closesSpec_runStack (ClosesSpec.nil h)]
    rfl

/-- C2: `validate_bnf_groups` returns true iff every `(` in the input is
matched by a `)` and every `[` by a `]` with non-crossing, properly nested
pairing; on a kind mismatch, a closer with empty stack, or any unclosed
opener it returns false.  (The logged diagnostics are a side effect outside
the returned boolean and outside this model.) -/
theorem c2_validate_iff_balanced (s : String) :
    validate_bnf_groups s = true ↔ BalancedBNF s.data :=
  validate_iff_balancedBNF_data s.data

/-! Helper lemmas about the expansion engine. -/

theorem phaseB_none_of_invalid {A : Alphabet} {l : List String}
    (h : ∃ s ∈ l, validate_bnf_groups s = false) : phaseB A l = none := by
  induction l with
  | nil => simp at h
  | cons t ts ih =>
    rcases h with ⟨s, hmem, hval⟩
    rcases List.mem_cons.mp hmem with rfl | hmem'
    · simp [phaseB, phaseB_one, hval]
    · simp only [phaseB]
      split
      · rfl
      · rw [ih ⟨s, hmem', hval⟩]

theorem phaseB_all_pass {A : Alphabet} {l : List String}
    (h : ∀ t ∈ l, phaseB_one A t = some [t]) : phaseB A l = some l := by
  induction l with
  | nil => rfl
  | cons t ts ih =>
    simp only [phaseB, h t (List.mem_cons_self ..),
      ih (fun u hu => h u (List.mem_cons_of_mem t hu))]
    rfl

theorem flatten_map_singleton {α : Type} {l : List α} {f : α → List α}
    (h : ∀ t ∈ l, f t = [t]) : (l.map f).flatten = l := by
  induction l with
  | nil => rfl
  | cons t ts ih =>
    simp only [List.map_cons, List.flatten_cons, h t (List.mem_cons_self ..),
      ih (fun u hu => h u (List.mem_cons_of_mem t hu))]
    rfl

theorem expandFuel_step {table : List (String × Alphabet)} {A : Alphabet}
    {ws goe : List String} {lang : String} (fuel : Nat)
    (hA : lookupLang table lang = some A) (hne : ws.isEmpty = false)
    (hr : expandRound A ws = some goe)
    (hw : are_all_words_only table goe lang = .ok false) :
    expandFuel table (fuel + 1) ws lang = expandFuel table fuel goe lang := by
  simp [expandFuel, hA, hne, hr, hw]

/-- C8: an unsupported language identifier (lowercased form not a table key)
makes `expand` return the empty list at once, before any expansion.  (The
single logged error is a side effect outside the model; the alphabet table is
modelled from the spec.) -/
theorem c8_unsupported_language (table : List (String × Alphabet))
    (fuel : Nat) (ws : List String) (lang : String)
    (h : lookupLang table lang = none) :
    expandFuel table (fuel + 1) ws lang = some (PyRes.ok []) := by
  simp [expandFuel, h]

/-- Witness for C8 at the spec's own example `expand({"a|b"}, "xx")`. -/
theorem c8_witness :
    expandFuel LANGUAGE_UNICODE_ALPHABET 1 ["a|b"] "xx" = some (PyRes.ok []) :=
  c8_unsupported_language LANGUAGE_UNICODE_ALPHABET 0 ["a|b"] "xx" (by rfl)

/-- C4: if any candidate processed in Phase B of a round fails bracket
validation, the whole call returns the empty list: expansions of well-formed
sibling candidates in the same batch are discarded. -/
theorem c4_phaseB_poison (table : List (String × Alphabet)) (A : Alphabet)
    (fuel : Nat) (ws : List String) (lang : String)
    (hA : lookupLang table lang = some A)
    (hne : ws.isEmpty = false)
    (hfail : ∃ s ∈ sortDedup ((ws.map (phaseA_one A)).flatten),
      validate_bnf_groups s = false) :
    expandFuel table (fuel + 1) ws lang = some (PyRes.ok []) := by
  have hround : expandRound A ws = none := by
    simp only [expandRound]
    rw [phaseB_none_of_invalid hfail]
  simp [expandFuel, hA, hne, hround]

/-- Witness for C4: the malformed `"(a|b]"` poisons its well-formed sibling
`"(x|y)"`, the whole batch returning empty. -/
theorem c4_witness :
    expandFuel LANGUAGE_UNICODE_ALPHABET 1 ["(a|b]", "(x|y)"] "en" =
      some (PyRes.ok []) :=
  c4_phaseB_poison LANGUAGE_UNICODE_ALPHABET enAlphabet 0 ["(a|b]", "(x|y)"]
    "en" (by rfl) (by decide) ⟨"(a|b]", by decide, by decide⟩

/-- C5: whenever `expand` returns normally, the result is strictly sorted in
the code-point lexicographic order (hence duplicate-free). -/
theorem c5_sorted_nodup (table : List (String × Alphabet)) (fuel : Nat)
    (ws : List String) (lang : String) (r : List String)
    (h : expandFuel table fuel ws lang = some (PyRes.ok r)) :
    r.Pairwise (fun a b => strLt a b = true) ∧ r.Nodup := by
  induction fuel generalizing ws r with
  | zero => exact absurd h (by simp [expandFuel])
  | succ n ih =>
    simp only [expandFuel] at h
    split at h
    · simp only [Option.some.injEq, PyRes.ok.injEq] at h
      subst h
      exact ⟨List.Pairwise.nil, List.nodup_nil⟩
    · split at h
      · simp only [Option.some.injEq, PyRes.ok.injEq] at h
        subst h
        exact ⟨List.Pairwise.nil, List.nodup_nil⟩
      · split at h
        · simp only [Option.some.injEq, PyRes.ok.injEq] at h
          subst h
          exact ⟨List.Pairwise.nil, List.nodup_nil⟩
        · split at h
          · simp at h
          · exact ih _ _ h
          · simp only [Option.some.injEq, PyRes.ok.injEq] at h
            subst h
            exact ⟨pairwise_sortDedup _,
              nodup_of_pairwise_strLt (pairwise_sortDedup _)⟩

/-- Witness for C5 at the spec's example `"(a|b|c)"`. -/
theorem c5_witness :
    (["a", "b", "c"] : List String).Pairwise (fun a b => strLt a b = true) ∧
      (["a", "b", "c"] : List String).Nodup :=
  c5_sorted_nodup LANGUAGE_UNICODE_ALPHABET 1 ["(a|b|c)"] "en" ["a", "b", "c"]
    (by decide)

/-! The substitution step (C7). -/

theorem splitAtFirstAux_sound {pat : List Char} (l : List Char) :
    ∀ {p suf : List Char}, splitAtFirstAux pat l = some (p, suf) →
      l = p ++ pat ++ suf := by
  induction l with
  | nil =>
    intro p suf h
    simp only [splitAtFirstAux] at h
    split at h
    · next hp =>
      simp only [Option.some.injEq, Prod.mk.injEq] at h
      obtain ⟨rfl, rfl⟩ := h
      simp [List.isEmpty_iff.mp hp]
    · simp at h
  | cons c cs ih =>
    intro p suf h
    simp only [splitAtFirstAux] at h
    split at h
    · next hpre =>
      simp only [Option.some.injEq, Prod.mk.injEq] at h
      obtain ⟨rfl, rfl⟩ := h
      obtain ⟨t, ht⟩ := List.isPrefixOf_iff_prefix.mp hpre
      rw [List.nil_append, ← ht, List.drop_left]
    · next hpre =>
      obtain ⟨pr, hpr, heq⟩ := Option.map_eq_some'.mp h
      obtain ⟨p1, p2⟩ := pr
      simp only [Prod.mk.injEq] at heq
      obtain ⟨h1, h2⟩ := heq
      subst h1
      subst h2
      rw [List.cons_append, List.cons_append]
      exact congrArg (c :: ·) (ih hpr)

theorem replaceFirstAux_eq {pat new : List Char} (hne : pat ≠ []) (l : List Char) :
    ∀ {p suf : List Char}, splitAtFirstAux pat l = some (p, suf) →
      replaceFirstAux pat new l = p ++ new ++ suf := by
  induction l with
  | nil =>
    intro p suf h
    simp only [splitAtFirstAux] at h
    rw [if_neg (by simp only [List.isEmpty_iff]; exact hne)] at h
    simp at h
  | cons c cs ih =>
    intro p suf h
    simp only [splitAtFirstAux] at h
    simp only [replaceFirstAux]
    split at h
    · next hpre =>
      simp only [Option.some.injEq, Prod.mk.injEq] at h
      obtain ⟨rfl, rfl⟩ := h
      rw [if_pos hpre]
      simp
    · next hpre =>
      rw [if_neg hpre]
      obtain ⟨pr, hpr, heq⟩ := Option.map_eq_some'.mp h
      obtain ⟨p1, p2⟩ := pr
      simp only [Prod.mk.injEq] at heq
      obtain ⟨h1, h2⟩ := heq
      subst h1
      subst h2
      rw [List.cons_append, List.cons_append]
      exact congrArg (c :: ·) (ih hpr)

theorem pyReplace1_eq {s pat p suf : String} (new : String)
    (h : splitAtFirst s pat = some (p, suf)) :
    pyReplace1 s pat new = String.mk (p.data ++ new.data ++ suf.data) := by
  obtain ⟨pr, hpr, heq⟩ := Option.map_eq_some'.mp h
  obtain ⟨p1, p2⟩ := pr
  simp only [Prod.mk.injEq] at heq
  obtain ⟨h1, h2⟩ := heq
  subst h1
  subst h2
  by_cases hne : pat.data = []
  · rw [pyReplace1, if_pos (by simp [hne])]
    rw [hne] at hpr
    cases hl : s.data with
    | nil =>
      rw [hl] at hpr
      simp only [splitAtFirstAux, List.isEmpty_nil, if_pos, Option.some.injEq,
        Prod.mk.injEq] at hpr
      obtain ⟨hp1, hp2⟩ := hpr
      subst hp1
      subst hp2
      simp [hl]
    | cons c cs =>
      rw [hl] at hpr
      have hpre : ([] : List Char).isPrefixOf (c :: cs) = true := rfl
      simp only [splitAtFirstAux, hpre, if_pos, List.drop_zero,
        Option.some.injEq, Prod.mk.injEq] at hpr
      obtain ⟨hp1, hp2⟩ := hpr
      subst hp1
      subst hp2
      simp [hl]
  · rw [pyReplace1, if_neg (by simp [hne])]
    exact congrArg String.mk (replaceFirstAux_eq hne s.data hpr)

/-- C7: for every candidate and matched span occurring in it, the
substitution step returns exactly the set obtained by replacing the first
occurrence of the span (decomposition `candidate = p ++ span ++ suf` with `p`
shortest) with each alternative of `split_options span`; the suffix — hence
every later occurrence of the span — is untouched, and identical results
collapse into one set element (`sortDedup`). -/
theorem c7_substitution (bnf mv p suf : String)
    (h : splitAtFirst bnf mv = some (p, suf)) :
    bnf.data = p.data ++ mv.data ++ suf.data ∧
    get_potential_options bnf mv =
      sortDedup ((split_options mv).map
        (fun opt => String.mk (p.data ++ opt.data ++ suf.data))) := by
  constructor
  · obtain ⟨pr, hpr, heq⟩ := Option.map_eq_some'.mp h
    obtain ⟨p1, p2⟩ := pr
    simp only [Prod.mk.injEq] at heq
    obtain ⟨h1, h2⟩ := heq
    subst h1
    subst h2
    exact splitAtFirstAux_sound bnf.data hpr
  · rw [get_potential_options,
      List.map_congr_left (fun opt _ => pyReplace1_eq opt h)]

/-- Witness for C7: the span `"(a|b)"` occurs twice in the candidate; only
the first occurrence is substituted. -/
theorem c7_witness :
    "x (a|b) (a|b)".data = "x ".data ++ "(a|b)".data ++ " (a|b)".data ∧
    get_potential_options "x (a|b) (a|b)" "(a|b)" =
      sortDedup ((split_options "(a|b)").map
        (fun opt => String.mk ("x ".data ++ opt.data ++ " (a|b)".data))) :=
  c7_substitution "x (a|b) (a|b)" "(a|b)" "x " " (a|b)" (by decide)

/-! Phase C's absent-optional variant (C10). -/

theorem collapseDoubleSpace_of_no_double {l : List Char}
    (h : hasDoubleSpace l = false) : collapseDoubleSpace l = l := by
  induction l with
  | nil => rfl
  | cons c1 rest ih =>
    cases rest with
    | nil => rfl
    | cons c2 cs =>
      simp only [hasDoubleSpace, Bool.or_eq_false_iff] at h
      obtain ⟨h1, h2⟩ := h
      simp only [collapseDoubleSpace, h1, Bool.false_eq_true, if_false]
      exact congrArg (c1 :: ·) (ih h2)

/-- C10: the absent-optional variant of Phase C is the candidate with the
first occurrence of the optional span deleted and then every non-overlapping
pair of consecutive spaces, anywhere in the string, replaced by one space;
double spaces away from the removal site are collapsed too, three consecutive
spaces collapse only to two, and a string with no double space is unchanged. -/
theorem c10_collapse (A : Alphabet) (c : String) (span : List Char)
    (h : findSpan A '[' ']' c.data = some span) :
    (phaseC_one A c).head? =
      some (String.mk (collapseDoubleSpace (pyReplace1 c (String.mk span) "").data)) ∧
    (∀ l : List Char, hasDoubleSpace l = false → collapseDoubleSpace l = l) ∧
    collapseDoubleSpace "a   b".data = "a  b".data ∧
    collapseDoubleSpace "x  y  z".data = "x y z".data := by
  refine ⟨?_, fun l hl => collapseDoubleSpace_of_no_double hl, by decide, by decide⟩
  simp [phaseC_one, h]

/-- Witness for C10 at the spec's whitespace-collapse example
`"foo [bar] baz"` (deleting `"[bar]"` leaves `"foo  baz"`, collapsed to
`"foo baz"`). -/
theorem c10_witness :
    (phaseC_one enAlphabet "foo [bar] baz").head? =
      some (String.mk (collapseDoubleSpace
        (pyReplace1 "foo [bar] baz" (String.mk "[bar]".data) "").data)) ∧
    (∀ l : List Char, hasDoubleSpace l = false → collapseDoubleSpace l = l) ∧
    collapseDoubleSpace "a   b".data = "a  b".data ∧
    collapseDoubleSpace "x  y  z".data = "x y z".data :=
  c10_collapse enAlphabet "foo [bar] baz" "[bar]".data (by decide)

/-- C3 fails on the code: the two absent-optional variants keep a trailing
space, so the six returned sentences are not the six claimed ones. -/
theorem c3_counterexample :
    expandFuel LANGUAGE_UNICODE_ALPHABET 1 ["(a|b) [c|d]"] "en" =
      some (PyRes.ok ["a ", "a c", "a d", "b ", "b c", "b d"]) ∧
    ¬ expandFuel LANGUAGE_UNICODE_ALPHABET 1 ["(a|b) [c|d]"] "en" =
      some (PyRes.ok ["a", "a c", "a d", "b", "b c", "b d"]) := by
  exact ⟨by decide, by decide⟩

/-- C3 as amended: for `"(a|b) [c|d]"` under the supported language `en`
(letters plus space), `expand` returns exactly the six sentences `"a "`,
`"a c"`, `"a d"`, `"b "`, `"b c"`, `"b d"`; the absent-optional variants
carry one trailing space, left over from deleting `"[c|d]"`, which the
double-space collapse does not trim. -/
theorem c3_amended :
    expandFuel LANGUAGE_UNICODE_ALPHABET 1 ["(a|b) [c|d]"] "en" =
      some (PyRes.ok ["a ", "a c", "a d", "b ", "b c", "b d"]) := by
  decide

/-- C1 fails on the code: on `{"a."}` under `en` (the class has no `'.'`)
the round leaves the candidate unchanged although it is not word-only, and
`expand` makes no progress. -/
theorem c1_counterexample :
    expandRound enAlphabet ["a."] = some ["a."] ∧
    are_all_words_only LANGUAGE_UNICODE_ALPHABET ["a."] "en" = PyRes.ok false ∧
    expandFuel LANGUAGE_UNICODE_ALPHABET 5 ["a."] "en" = none := by
  exact ⟨by decide, by decide, by decide⟩

/-- C1 as amended: `expand` does not terminate on every input.  A round can
leave every candidate unchanged while a candidate is still not word-only
(`{"a."}` under `en`), and on such an input the recursion never returns,
within any number of rounds. -/
theorem c1_amended :
    ∀ fuel : Nat, expandFuel LANGUAGE_UNICODE_ALPHABET fuel ["a."] "en" = none := by
  intro fuel
  induction fuel with
  | zero => rfl
  | succ n ih =>
    rw [@expandFuel_step LANGUAGE_UNICODE_ALPHABET enAlphabet ["a."] ["a."]
      "en" n (by rfl) (by decide) (by decide) (by decide)]
    exact ih

/-! Word-only working sets (C6 and C9). -/

theorem all_dropWhile {p m : Char → Bool} {l : List Char} (h : l.all m = true) :
    (l.dropWhile p).all m = true := by
  induction l with
  | nil => rfl
  | cons c cs ih =>
    simp only [List.all_cons, Bool.and_eq_true] at h
    rw [List.dropWhile_cons]
    split
    · exact ih h.2
    · simpa [List.all_cons, h.1] using h.2

theorem all_pyStrip {m : Char → Bool} {l : List Char} (h : l.all m = true) :
    (pyStrip l).all m = true := by
  rw [pyStrip]
  have h1 : (l.dropWhile isPySpace).all m = true := all_dropWhile h
  have h2 : (l.dropWhile isPySpace).reverse.all m = true := by simpa using h1
  have h3 := all_dropWhile (p := isPySpace) h2
  simpa using h3

theorem member_ne_special {A : Alphabet} {c : Char} (h : A.member c = true) :
    c ≠ '(' ∧ c ≠ ')' ∧ c ≠ '[' ∧ c ≠ ']' ∧ c ≠ '|' := by
  refine ⟨?_, ?_, ?_, ?_, ?_⟩ <;> intro he <;> subst he
  · exact absurd h (by rw [A.lparen_not]; simp)
  · exact absurd h (by rw [A.rparen_not]; simp)
  · exact absurd h (by rw [A.lbrack_not]; simp)
  · exact absurd h (by rw [A.rbrack_not]; simp)
  · exact absurd h (by rw [A.pipe_not]; simp)

theorem splitOnChar_no_sep {sep : Char} {l : List Char}
    (h : ∀ c ∈ l, (c == sep) = false) : splitOnChar sep l = [l] := by
  induction l with
  | nil => rfl
  | cons c cs ih =>
    simp only [splitOnChar, h c (List.mem_cons_self ..), Bool.false_eq_true,
      if_false]
    rw [ih (fun u hu => h u (List.mem_cons_of_mem c hu))]

theorem validateAux_no_brackets {l : List Char}
    (h : ∀ c ∈ l, c ≠ '(' ∧ c ≠ ')' ∧ c ≠ '[' ∧ c ≠ ']') :
    ∀ stack, validateAux stack l = stack.isEmpty := by
  induction l with
  | nil => intro stack; rfl
  | cons c cs ih =>
    intro stack
    obtain ⟨h1, h2, h3, h4⟩ := h c (List.mem_cons_self ..)
    have e1 : (c == '(') = false := by simp [h1]
    have e2 : (c == ')') = false := by simp [h2]
    have e3 : (c == '[') = false := by simp [h3]
    have e4 : (c == ']') = false := by simp [h4]
    simp only [validateAux, e1, e2, e3, e4, Bool.or_self, Bool.false_or,
      Bool.false_eq_true, if_false]
    exact ih (fun u hu => h u (List.mem_cons_of_mem c hu)) stack

theorem findSpan_none {A : Alphabet} {openC closeC : Char} {l : List Char}
    (h : ∀ c ∈ l, (c == openC) = false) :
    findSpan A openC closeC l = none := by
  induction l with
  | nil => rfl
  | cons c cs ih =>
    simp only [findSpan, h c (List.mem_cons_self ..), Bool.false_eq_true,
      if_false]
    exact ih (fun u hu => h u (List.mem_cons_of_mem c hu))

theorem firstWordRun_all {A : Alphabet} {l : List Char} (hne : l ≠ [])
    (h : l.all A.member = true) : firstWordRun A l = some l := by
  cases l with
  | nil => exact absurd rfl hne
  | cons c cs =>
    simp only [List.all_cons, Bool.and_eq_true] at h
    simp only [firstWordRun, h.1, if_pos]
    rw [List.takeWhile_eq_self_iff.mpr (by
      intro u hu
      exact (List.all_eq_true.mp h.2) u hu)]

theorem firstWordRun_none {A : Alphabet} {l : List Char}
    (h : l.all (fun c => !A.member c) = true) : firstWordRun A l = none := by
  induction l with
  | nil => rfl
  | cons c cs ih =>
    simp only [List.all_cons, Bool.and_eq_true, Bool.not_eq_eq_eq_not,
      Bool.not_true] at h
    simp only [firstWordRun, h.1, Bool.false_eq_true, if_false]
    exact ih (by
      simp only [List.all_eq_true] at h ⊢
      intro u hu
      simpa using h.2 u hu)

theorem is_words_only_true {table : List (String × Alphabet)} {A : Alphabet}
    {lang : String} {s : String} (hA : lookupLang table lang = some A)
    (hne : s.data ≠ []) (h : s.data.all A.member = true) :
    is_words_only table s lang = PyRes.ok true := by
  simp only [is_words_only, hA, firstWordRun_all hne h]
  rw [beq_self_eq_true]

theorem are_all_words_only_true {table : List (String × Alphabet)} {A : Alphabet}
    {lang : String} {l : List String} (hA : lookupLang table lang = some A)
    (h : ∀ s ∈ l, s.data ≠ [] ∧ s.data.all A.member = true) :
    are_all_words_only table l lang = PyRes.ok true := by
  induction l with
  | nil => rfl
  | cons s rest ih =>
    obtain ⟨h1, h2⟩ := h s (List.mem_cons_self ..)
    simp only [are_all_words_only, is_words_only_true hA h1 h2]
    exact ih (fun u hu => h u (List.mem_cons_of_mem s hu))

theorem flatten_map_eq_map {α β : Type} {l : List α} {f : α → List β} {g : α → β}
    (h : ∀ t ∈ l, f t = [g t]) : (l.map f).flatten = l.map g := by
  induction l with
  | nil => rfl
  | cons t ts ih =>
    simp only [List.map_cons, List.flatten_cons, h t (List.mem_cons_self ..),
      ih (fun u hu => h u (List.mem_cons_of_mem t hu))]
    rfl

theorem phaseA_one_word {A : Alphabet} {s : String} (hne : s.data ≠ [])
    (h : s.data.all A.member = true) :
    phaseA_one A s = [String.mk (pyStrip s.data)] := by
  have hcond : s.data.all (fun c => A.member c || c == '|') = true := by
    simp only [List.all_eq_true] at h ⊢
    intro c hc
    simp [h c hc]
  have hemp : s.data.isEmpty = false := by simp [List.isEmpty_iff, hne]
  simp only [phaseA_one, hcond, hemp, Bool.not_false, Bool.and_self, if_pos]
  rw [split_options]
  have hrm : remove_from_string s.data ['(', ')', '[', ']'] = s.data := by
    rw [remove_from_string]
    apply List.filter_eq_self.mpr
    intro c hc
    obtain ⟨n1, n2, n3, n4, _⟩ := member_ne_special (List.all_eq_true.mp h c hc)
    simp [n1, n2, n3, n4]
  rw [hrm, splitOnChar_no_sep (fun c hc => by
    obtain ⟨_, _, _, _, n5⟩ := member_ne_special (List.all_eq_true.mp h c hc)
    simp [n5])]
  rfl

theorem phaseB_one_word {A : Alphabet} {t : String}
    (h : t.data.all A.member = true) : phaseB_one A t = some [t] := by
  have hv : validate_bnf_groups t = true := by
    rw [validate_bnf_groups, validateAux_no_brackets (fun c hc => by
      obtain ⟨n1, n2, n3, n4, _⟩ := member_ne_special (List.all_eq_true.mp h c hc)
      exact ⟨n1, n2, n3, n4⟩)]
    rfl
  have hf : findSpan A '(' ')' t.data = none := findSpan_none (fun c hc => by
    obtain ⟨n1, _, _, _, _⟩ := member_ne_special (List.all_eq_true.mp h c hc)
    simp [n1])
  simp [phaseB_one, hv, hf]

theorem phaseC_one_word {A : Alphabet} {t : String}
    (h : t.data.all A.member = true) : phaseC_one A t = [t] := by
  have hf : findSpan A '[' ']' t.data = none := findSpan_none (fun c hc => by
    obtain ⟨_, _, n3, _, _⟩ := member_ne_special (List.all_eq_true.mp h c hc)
    simp [n3])
  simp [phaseC_one, hf]

theorem expandRound_word {A : Alphabet} {ws : List String}
    (hw : ∀ s ∈ ws, s.data ≠ [] ∧ s.data.all A.member = true) :
    expandRound A ws =
      some (sortDedup (ws.map (fun s => String.mk (pyStrip s.data)))) := by
  have hA1 : (ws.map (phaseA_one A)).flatten =
      ws.map (fun s => String.mk (pyStrip s.data)) :=
    flatten_map_eq_map (fun t ht => phaseA_one_word (hw t ht).1 (hw t ht).2)
  have hmemoe : ∀ t ∈ sortDedup (ws.map (fun s => String.mk (pyStrip s.data))),
      t.data.all A.member = true := by
    intro t ht
    rw [mem_sortDedup] at ht
    obtain ⟨s, hs, rfl⟩ := List.mem_map.mp ht
    exact all_pyStrip (hw s hs).2
  have hB : phaseB A (sortDedup (ws.map (fun s => String.mk (pyStrip s.data)))) =
      some (sortDedup (ws.map (fun s => String.mk (pyStrip s.data)))) :=
    phaseB_all_pass (fun t ht => phaseB_one_word (hmemoe t ht))
  simp only [expandRound, hA1]
  rw [hB]
  show some _ = some _
  rw [sortDedup_eq_self (pairwise_sortDedup (ws.map (fun s => String.mk (pyStrip s.data))))]
  rw [flatten_map_singleton (fun t ht => phaseC_one_word (hmemoe t ht))]
  rw [sortDedup_eq_self (pairwise_sortDedup (ws.map (fun s => String.mk (pyStrip s.data))))]

/-- C6 fails on the code: the word-only input `" a "` (space is in the
alphabet class) comes back stripped to `"a"`, not unchanged. -/
theorem c6_counterexample :
    is_words_only LANGUAGE_UNICODE_ALPHABET " a " "en" = PyRes.ok true ∧
    expandFuel LANGUAGE_UNICODE_ALPHABET 1 [" a "] "en" = some (PyRes.ok ["a"]) ∧
    ¬ expandFuel LANGUAGE_UNICODE_ALPHABET 1 [" a "] "en" =
      some (PyRes.ok [" a "]) := by
  exact ⟨by decide, by decide, by decide⟩

/-- C6 as amended: for a non-empty set of word-only candidates (all
characters in the alphabet class, each candidate not all-whitespace),
`expand` returns in one round the sorted deduplicated list of the
`strip()`-ed candidates: content is unchanged only up to stripping of
leading and trailing whitespace, which Phase A's splitter always applies. -/
theorem c6_amended (table : List (String × Alphabet)) (A : Alphabet)
    (fuel : Nat) (ws : List String) (lang : String)
    (hA : lookupLang table lang = some A)
    (hne : ws ≠ [])
    (hwords : ∀ s ∈ ws, s.data.all A.member = true)
    (hstrip : ∀ s ∈ ws, pyStrip s.data ≠ []) :
    expandFuel table (fuel + 1) ws lang =
      some (PyRes.ok (sortDedup (ws.map (fun s => String.mk (pyStrip s.data))))) := by
  have hw : ∀ s ∈ ws, s.data ≠ [] ∧ s.data.all A.member = true := by
    intro s hs
    refine ⟨?_, hwords s hs⟩
    intro hd
    exact hstrip s hs (by rw [hd]; rfl)
  have hround := expandRound_word (A := A) hw
  have hgoe : ∀ t ∈ sortDedup (ws.map (fun s => String.mk (pyStrip s.data))),
      t.data ≠ [] ∧ t.data.all A.member = true := by
    intro t ht
    rw [mem_sortDedup] at ht
    obtain ⟨s, hs, rfl⟩ := List.mem_map.mp ht
    exact ⟨hstrip s hs, all_pyStrip (hwords s hs)⟩
  have hcheck := are_all_words_only_true hA hgoe
  have hempty : ws.isEmpty = false := by simp [hne]
  simp only [expandFuel, hA, hempty, hround, hcheck, Bool.false_eq_true, if_false]
  rw [sortDedup_eq_self (pairwise_sortDedup _)]

/-- Witness for C6 as amended: two word-only candidates with no surrounding
whitespace come back as themselves, sorted. -/
theorem c6_witness :
    expandFuel LANGUAGE_UNICODE_ALPHABET 1 ["b", "a c"] "en" =
      some (PyRes.ok (sortDedup (["b", "a c"].map
        (fun s => String.mk (pyStrip s.data))))) :=
  c6_amended LANGUAGE_UNICODE_ALPHABET enAlphabet 0 ["b", "a c"] "en"
    (by rfl) (by decide) (by decide) (by decide)

theorem are_all_words_only_raised {table : List (String × Alphabet)}
    {A : Alphabet} {lang : String} {l : List String}
    (hA : lookupLang table lang = some A)
    (hall : ∀ s ∈ l, (s.data ≠ [] ∧ s.data.all A.member = true) ∨
      s.data.all (fun c => !A.member c) = true)
    (hsome : ∃ s ∈ l, s.data.all (fun c => !A.member c) = true) :
    are_all_words_only table l lang = PyRes.raised PyErr.attributeError := by
  induction l with
  | nil => simp at hsome
  | cons s rest ih =>
    rcases hall s (List.mem_cons_self ..) with hword | hno
    · simp only [are_all_words_only, is_words_only_true hA hword.1 hword.2]
      apply ih (fun u hu => hall u (List.mem_cons_of_mem s hu))
      rcases hsome with ⟨t, htmem, htno⟩
      rcases List.mem_cons.mp htmem with rfl | htmem'
      · exfalso
        cases hd : t.data with
        | nil => exact hword.1 hd
        | cons c cs =>
          have h1 := List.all_eq_true.mp hword.2 c (by
            rw [hd]; exact List.mem_cons_self ..)
          have h2 := List.all_eq_true.mp htno c (by
            rw [hd]; exact List.mem_cons_self ..)
          rw [h1] at h2
          simp at h2
      · exact ⟨t, htmem', htno⟩
    · simp [are_all_words_only, is_words_only, hA, firstWordRun_none hno]

/-- C9 fails as a general statement: a round's output can contain a
candidate with no alphabet character (here `"~"`) while the word-only check
returns `False` on an earlier candidate (`"!a"`) instead of raising, so
`expand` recurses on the unchanged set and never aborts with an error. -/
theorem c9_counterexample :
    expandRound enAlphabet ["!a", "~"] = some ["!a", "~"] ∧
    "~".data.all (fun c => !enAlphabet.member c) = true ∧
    are_all_words_only LANGUAGE_UNICODE_ALPHABET ["!a", "~"] "en" =
      PyRes.ok false ∧
    expandFuel LANGUAGE_UNICODE_ALPHABET 5 ["!a", "~"] "en" = none := by
  exact ⟨by decide, by decide, by decide, by decide⟩

/-- C9 as amended: when a round's output contains a candidate with no
alphabet character and every output candidate is either word-only or has no
alphabet character at all, the word-only check dereferences a failed regex
search (`.group` on `None`), raising `AttributeError`, and `expand` aborts
with that error instead of returning a list — as happens for input
`{"[a]"}`, whose round output is `{"", "a"}`.  Without that side condition a
non-word-only candidate checked earlier can make the check return `False`
and `expand` recurse instead. -/
theorem c9_amended (table : List (String × Alphabet)) (A : Alphabet)
    (fuel : Nat) (ws : List String) (lang : String) (goe : List String)
    (hA : lookupLang table lang = some A)
    (hne : ws.isEmpty = false)
    (hr : expandRound A ws = some goe)
    (hall : ∀ s ∈ goe, (s.data ≠ [] ∧ s.data.all A.member = true) ∨
      s.data.all (fun c => !A.member c) = true)
    (hsome : ∃ s ∈ goe, s.data.all (fun c => !A.member c) = true) :
    expandFuel table (fuel + 1) ws lang =
      some (PyRes.raised PyErr.attributeError) := by
  simp [expandFuel, hA, hne, hr, are_all_words_only_raised hA hall hsome]

/-- Witness for C9 as amended at the claim's own example `{"[a]"}`: the
round produces the empty candidate, and `expand` raises. -/
theorem c9_witness :
    expandFuel LANGUAGE_UNICODE_ALPHABET 1 ["[a]"] "en" =
      some (PyRes.raised PyErr.attributeError) :=
  c9_amended LANGUAGE_UNICODE_ALPHABET enAlphabet 0 ["[a]"] "en" ["", "a"]
    (by rfl) (by decide) (by decide) (by decide) ⟨"", by decide, by decide⟩
